import Mathlib

/-!
Shallow embedding of `src/quantum.py`, a classical simulator of a small
quantum register (class `Psi`).  The Python state vector of complex floats
is modelled by a `List ℂ` of exact complex numbers; Python exceptions
(`ValueError`, `IndexError`) are modelled by `Except PyErr`; the call to
`random()` in `collapse` is modelled by an explicit parameter `r : ℝ`
standing for the value drawn uniformly from `[0, 1)`.
-/

noncomputable section

/-- The two Python exception types the source can raise: `ValueError()` from
the gate argument checks, and `IndexError` from an out-of-range list index. -/
inductive PyErr where
  | valueError
  | indexError
deriving DecidableEq

/-- The quantum register `Psi`: a qubit count and the amplitude vector. -/
structure Psi where
  n_qubits : Nat
  amplitudes : List ℂ

/-- `Psi.__init__`: `self.amplitudes = [0] * (1 << n_qubits)` followed by
`self.amplitudes[0] = 1` (note `1 <<< n = 2 ^ n`). -/
def Psi.init (n_qubits : Nat) : Psi :=
  ⟨n_qubits, (List.replicate (2 ^ n_qubits) 0).set 0 1⟩

/-- Well-formedness of a register: the amplitude list has length
`2 ^ n_qubits`, as every state reachable through the API does. -/
def Psi.wf (st : Psi) : Prop :=
  st.amplitudes.length = 2 ^ st.n_qubits

/-- Total weight `sum(weights)` with `weights = [abs(amp) ** 2 for amp in
self.amplitudes]`. -/
def Psi.totalWeight (st : Psi) : ℝ :=
  (st.amplitudes.map (fun a => Complex.abs a ^ 2)).sum

/-- Checked evaluation of a loop body over a list of indices, building the
list of produced values; the first Python exception aborts the loop. -/
def seqMap (f : Nat → Except PyErr ℂ) : List Nat → Except PyErr (List ℂ)
  | [] => .ok []
  | i :: is =>
    match f i with
    | .error e => .error e
    | .ok a =>
      match seqMap f is with
      | .error e => .error e
      | .ok as => .ok (a :: as)

/-- The loop body of `pi_over_eight`: multiply `amplitudes[i]` by
`exp(-1j*pi/8)` if bit `qubit` of `i` is zero, by `exp(1j*pi/8)` if one. -/
def piStep (amps : List ℂ) (qubit i : Nat) : Except PyErr ℂ :=
  match amps[i]? with
  | none => .error .indexError
  | some a =>
    if (i >>> qubit) % 2 = 0 then
      .ok (a * Complex.exp (-Complex.I * Real.pi / 8))
    else
      .ok (a * Complex.exp (Complex.I * Real.pi / 8))

/-- `Psi.pi_over_eight`: range check `qubit > self.n_qubits`, then rewrite
every amplitude through `piStep` over `i in range(1 << self.n_qubits)`. -/
def Psi.pi_over_eight (st : Psi) (qubit : Nat) : Except PyErr Psi :=
  if qubit > st.n_qubits then .error .valueError
  else
    match seqMap (piStep st.amplitudes qubit) (List.range (2 ^ st.n_qubits)) with
    | .error e => .error e
    | .ok as => .ok ⟨st.n_qubits, as⟩

/-- Destination index of `controlled_not`:
`i ^ (((i >> qubit1) % 2) << qubit2)`. -/
def cnotDest (qubit1 qubit2 i : Nat) : Nat :=
  i ^^^ (((i >>> qubit1) % 2) <<< qubit2)

/-- The scatter loop of `controlled_not`:
`self.amplitudes[dest i] = old_amplitudes[i]` for each `i` in the index
list, reading from the `old` snapshot and writing into the live vector
`amps`; an out-of-range read or write raises `IndexError`. -/
def scatter (old : List ℂ) (dest : Nat → Nat) :
    List Nat → List ℂ → Except PyErr (List ℂ)
  | [], amps => .ok amps
  | i :: is, amps =>
    match old[i]? with
    | none => .error .indexError
    | some v =>
      if dest i < amps.length then
        scatter old dest is (amps.set (dest i) v)
      else .error .indexError

/-- `Psi.controlled_not`: argument check
`qubit1 > self.n_qubits or qubit2 > self.n_qubits or qubit1 == qubit2`,
then snapshot `old_amplitudes = self.amplitudes[:]` and scatter each
`old_amplitudes[i]` to index `i ^ (((i >> qubit1) % 2) << qubit2)`. -/
def Psi.controlled_not (st : Psi) (qubit1 qubit2 : Nat) : Except PyErr Psi :=
  if qubit1 > st.n_qubits ∨ qubit2 > st.n_qubits ∨ qubit1 = qubit2 then
    .error .valueError
  else
    match scatter st.amplitudes (cnotDest qubit1 qubit2)
        (List.range (2 ^ st.n_qubits)) st.amplitudes with
    | .error e => .error e
    | .ok as => .ok ⟨st.n_qubits, as⟩

/-- The loop body of `hadamard`, reading from the snapshot `old`:
if bit `qubit` of `i` is zero,
`(old_amplitudes[i] - old_amplitudes[i + (1 << qubit)]) / sqrt(2)`;
if one, `(old_amplitudes[i - (1 << qubit)] - old_amplitudes[i]) / sqrt(2)`. -/
def hadamardStep (old : List ℂ) (qubit i : Nat) : Except PyErr ℂ :=
  if (i >>> qubit) % 2 = 0 then
    match old[i]?, old[i + 2 ^ qubit]? with
    | some a, some b => .ok ((a - b) / (Real.sqrt 2 : ℂ))
    | _, _ => .error .indexError
  else
    match old[i - 2 ^ qubit]?, old[i]? with
    | some a, some b => .ok ((a - b) / (Real.sqrt 2 : ℂ))
    | _, _ => .error .indexError

/-- `Psi.hadamard`: range check `qubit > self.n_qubits`, snapshot
`old_amplitudes = self.amplitudes[:]`, then rewrite every amplitude through
`hadamardStep` over `i in range(1 << self.n_qubits)`. -/
def Psi.hadamard (st : Psi) (qubit : Nat) : Except PyErr Psi :=
  if qubit > st.n_qubits then .error .valueError
  else
    match seqMap (hadamardStep st.amplitudes qubit) (List.range (2 ^ st.n_qubits)) with
    | .error e => .error e
    | .ok as => .ok ⟨st.n_qubits, as⟩

/-- The sampling loop of `collapse`: walk the weight list subtracting each
weight from `choice`; return the position where the remainder first goes
negative, or `none` if the loop runs off the end of the list. -/
def collapseFind (weights : List ℝ) (choice : ℝ) : Option Nat :=
  match weights with
  | [] => none
  | w :: ws =>
    if choice - w < 0 then some 0
    else (collapseFind ws (choice - w)).map (· + 1)

/-- `Psi.collapse`, with the value of `random()` passed in as `r`:
`weights = [abs(amp) ** 2 for amp in self.amplitudes]`,
`choice = r * sum(weights)`; on success the state is reset to the basis
state at the sampled index `i` and the bit tuple
`((i >> bit) % 2 for bit in range(self.n_qubits))` is returned; if the loop
finishes without returning, Python returns `None` and the state is
untouched. -/
def Psi.collapse (st : Psi) (r : ℝ) : Option (List Nat) × Psi :=
  let weights := st.amplitudes.map (fun a => Complex.abs a ^ 2)
  match collapseFind weights (r * weights.sum) with
  | some i =>
    (some ((List.range st.n_qubits).map (fun bit => (i >>> bit) % 2)),
     ⟨st.n_qubits, (List.replicate (2 ^ st.n_qubits) 0).set i 1⟩)
  | none => (none, st)

/-! ### General helper lemmas -/

theorem getElem?_eq_some_getD {α : Type} (l : List α) (i : Nat) (d : α)
    (h : i < l.length) : l[i]? = some (l.getD i d) := by
  rw [List.getD_eq_getElem?_getD, List.getElem?_eq_getElem h]
  rfl

theorem getD_map_range {α : Type} (m i : Nat) (h : i < m) (g : Nat → α) (d : α) :
    ((List.range m).map g).getD i d = g i := by
  rw [List.getD_eq_getElem?_getD, List.getElem?_map, List.getElem?_range h]
  rfl

theorem seqMap_ok_of_forall (f : Nat → Except PyErr ℂ) (g : Nat → ℂ)
    (l : List Nat) (h : ∀ i ∈ l, f i = .ok (g i)) :
    seqMap f l = .ok (l.map g) := by
  induction l with
  | nil => rfl
  | cons a as ih =>
    rw [seqMap.eq_def]
    simp only [List.map_cons]
    rw [h a (List.mem_cons_self a as), ih (fun i hi => h i (List.mem_cons_of_mem a hi))]

theorem shiftRight_mod_two_eq_zero_or_one (i q : Nat) :
    (i >>> q) % 2 = 0 ∨ (i >>> q) % 2 = 1 :=
  Nat.mod_two_eq_zero_or_one _

/-- If bit `q` of `i` is clear and `i < 2 ^ n` with `q < n`, then
`i + 2 ^ q < 2 ^ n`; this is why the zero-branch read of `hadamard`
stays in range for a valid qubit index. -/
theorem add_pow_lt_of_bit_zero {n q i : Nat} (hq : q < n) (hi : i < 2 ^ n)
    (hbit : (i >>> q) % 2 = 0) : i + 2 ^ q < 2 ^ n := by
  rw [Nat.shiftRight_eq_div_pow] at hbit
  have hms := Nat.mod_pow_succ (x := i) (b := 2) (k := q)
  rw [hbit, Nat.mul_zero, Nat.add_zero] at hms
  have hmq : i % 2 ^ q < 2 ^ q := Nat.mod_lt _ (Nat.pow_pos (by omega))
  have hpow : 2 ^ (q + 1) * 2 ^ (n - q - 1) = 2 ^ n := by
    rw [← pow_add]
    congr 1
    omega
  have hdiv : i / 2 ^ (q + 1) < 2 ^ (n - q - 1) := by
    apply Nat.div_lt_of_lt_mul
    rw [hpow]
    exact hi
  have hmul : 2 ^ (q + 1) * (i / 2 ^ (q + 1)) + 2 ^ (q + 1) ≤ 2 ^ n := by
    calc 2 ^ (q + 1) * (i / 2 ^ (q + 1)) + 2 ^ (q + 1)
        = 2 ^ (q + 1) * (i / 2 ^ (q + 1) + 1) := by ring
      _ ≤ 2 ^ (q + 1) * 2 ^ (n - q - 1) := Nat.mul_le_mul_left _ hdiv
      _ = 2 ^ n := hpow
  have hdm := Nat.div_add_mod i (2 ^ (q + 1))
  have hq1 : (2 : Nat) ^ (q + 1) = 2 * 2 ^ q := by rw [pow_succ]; ring
  omega

/-- If bit `q` of `i` is set then `2 ^ q ≤ i`, so the one-branch read
`old[i - 2 ^ q]` of `hadamard` refers to the intended lower index. -/
theorem pow_le_of_bit_one {q i : Nat} (hbit : (i >>> q) % 2 = 1) :
    2 ^ q ≤ i := by
  rw [Nat.shiftRight_eq_div_pow] at hbit
  have h1 : 1 ≤ i / 2 ^ q := by
    rcases Nat.eq_zero_or_pos (i / 2 ^ q) with h | h
    · rw [h] at hbit
      omega
    · exact h
  have hdm := Nat.div_add_mod i (2 ^ q)
  have h2 : 2 ^ q * 1 ≤ 2 ^ q * (i / 2 ^ q) := Nat.mul_le_mul_left _ h1
  omega

/-- Concrete evaluation: one Hadamard on the one-qubit register `|0⟩`
produces the amplitudes `[1/√2, 1/√2]` (both loop branches of the source
compute `(old[low] - old[high]) / sqrt(2)`). -/
theorem hadamard_init_one_eval : (Psi.init 1).hadamard 0 =
    .ok ⟨1, [1 / (Real.sqrt 2 : ℂ), 1 / (Real.sqrt 2 : ℂ)]⟩ := by
  have h : Psi.init 1 = ⟨1, [1, 0]⟩ := by simp [Psi.init]
  rw [h]
  show Psi.hadamard ⟨1, [1, 0]⟩ 0 = _
  rw [Psi.hadamard]
  norm_num
  rw [List.range_succ, List.range_succ, List.range_zero]
  norm_num [seqMap, hadamardStep]

/-! ### Hadamard: the exact per-index formula, and its consequences -/

/-- C2: for a well-formed register and a valid qubit index `q`, `hadamard`
returns a register whose amplitude at each index `i` is
`(old[i] - old[i + 2^q]) / sqrt 2` when bit `q` of `i` is 0, and
`(old[i - 2^q] - old[i]) / sqrt 2` when bit `q` of `i` is 1, where `old`
is the pre-call amplitude vector. -/
theorem hadamard_formula (st : Psi) (q : Nat) (hwf : st.wf) (hq : q < st.n_qubits) :
    ∃ new, st.hadamard q = .ok new ∧ new.n_qubits = st.n_qubits ∧
      new.amplitudes.length = 2 ^ st.n_qubits ∧
      ∀ i < 2 ^ st.n_qubits,
        new.amplitudes.getD i 0 =
          if (i >>> q) % 2 = 0 then
            (st.amplitudes.getD i 0 - st.amplitudes.getD (i + 2 ^ q) 0) / (Real.sqrt 2 : ℂ)
          else
            (st.amplitudes.getD (i - 2 ^ q) 0 - st.amplitudes.getD i 0) / (Real.sqrt 2 : ℂ) := by
  have hwf' : st.amplitudes.length = 2 ^ st.n_qubits := hwf
  refine ⟨⟨st.n_qubits, (List.range (2 ^ st.n_qubits)).map (fun i =>
      if (i >>> q) % 2 = 0 then
        (st.amplitudes.getD i 0 - st.amplitudes.getD (i + 2 ^ q) 0) / (Real.sqrt 2 : ℂ)
      else
        (st.amplitudes.getD (i - 2 ^ q) 0 - st.amplitudes.getD i 0) / (Real.sqrt 2 : ℂ))⟩,
    ?_, rfl, ?_, ?_⟩
  · rw [Psi.hadamard, if_neg (by omega)]
    rw [seqMap_ok_of_forall _ _ _ ?_]
    intro i hi
    rw [List.mem_range] at hi
    by_cases h0 : (i >>> q) % 2 = 0
    · rw [hadamardStep, if_pos h0,
        getElem?_eq_some_getD st.amplitudes i 0 (by rw [hwf']; exact hi),
        getElem?_eq_some_getD st.amplitudes (i + 2 ^ q) 0
          (by rw [hwf']; exact add_pow_lt_of_bit_zero hq hi h0)]
      simp only [if_pos h0]
    · rw [hadamardStep, if_neg h0,
        getElem?_eq_some_getD st.amplitudes (i - 2 ^ q) 0
          (by rw [hwf']; exact lt_of_le_of_lt (Nat.sub_le i (2 ^ q)) hi),
        getElem?_eq_some_getD st.amplitudes i 0 (by rw [hwf']; exact hi)]
      simp only [if_neg h0]
  · simp
  · intro i hi
    rw [getD_map_range _ _ hi]

/-- C2 witness: the formula theorem instantiated on the freshly built
one-qubit register and qubit 0. -/
theorem hadamard_formula_witness :
    (Psi.init 1).wf ∧ 0 < (Psi.init 1).n_qubits ∧
    (∃ new, (Psi.init 1).hadamard 0 = .ok new ∧ new.n_qubits = (Psi.init 1).n_qubits ∧
      new.amplitudes.length = 2 ^ (Psi.init 1).n_qubits ∧
      ∀ i < 2 ^ (Psi.init 1).n_qubits,
        new.amplitudes.getD i 0 =
          if (i >>> 0) % 2 = 0 then
            ((Psi.init 1).amplitudes.getD i 0 -
              (Psi.init 1).amplitudes.getD (i + 2 ^ 0) 0) / (Real.sqrt 2 : ℂ)
          else
            ((Psi.init 1).amplitudes.getD (i - 2 ^ 0) 0 -
              (Psi.init 1).amplitudes.getD i 0) / (Real.sqrt 2 : ℂ)) :=
  ⟨by simp [Psi.wf, Psi.init], by simp [Psi.init],
    hadamard_formula (Psi.init 1) 0 (by simp [Psi.wf, Psi.init]) (by simp [Psi.init])⟩

/-- C3 counterexample: on the freshly built one-qubit register, `hadamard 0`
does not produce the claimed amplitudes `[1/sqrt 2, -1/sqrt 2]` (it produces
`[1/sqrt 2, 1/sqrt 2]`). -/
theorem hadamard_init_not_antisymmetric : (Psi.init 1).hadamard 0 ≠
    .ok ⟨1, [1 / (Real.sqrt 2 : ℂ), -(1 / (Real.sqrt 2 : ℂ))]⟩ := by
  rw [hadamard_init_one_eval]
  intro h
  have hs : (Real.sqrt 2 : ℂ) ≠ 0 := by
    intro h0
    rw [Complex.ofReal_eq_zero] at h0
    exact absurd h0 (ne_of_gt (Real.sqrt_pos.mpr (by norm_num)))
  have hne : (1 / (Real.sqrt 2 : ℂ)) ≠ 0 := div_ne_zero one_ne_zero hs
  simp only [Except.ok.injEq, Psi.mk.injEq, List.cons.injEq, and_true, true_and] at h
  exact hne (CharZero.eq_neg_self_iff.mp h)

/-- C3 (amended): applying `hadamard` to qubit 0 of a freshly constructed
single-qubit register yields amplitudes `[1/sqrt 2, 1/sqrt 2]`. -/
theorem hadamard_init_one : (Psi.init 1).hadamard 0 =
    .ok ⟨1, [1 / (Real.sqrt 2 : ℂ), 1 / (Real.sqrt 2 : ℂ)]⟩ :=
  hadamard_init_one_eval

/-- C1 (code bug): applying `hadamard 0` twice to the freshly built
one-qubit register yields the amplitude vector `[0, 0]`, whose sum of
squared magnitudes is `0`, not `1` — the source's Hadamard computes
`(old[low] - old[high]) / sqrt 2` in both branches and therefore is not
unitary, breaking the normalization invariant. -/
theorem hadamard_twice_breaks_normalization :
    ((Psi.init 1).hadamard 0).bind (fun s => s.hadamard 0) = .ok ⟨1, [0, 0]⟩ ∧
    Psi.totalWeight ⟨1, [0, 0]⟩ = 0 ∧ (0 : ℝ) ≠ 1 := by
  refine ⟨?_, by simp [Psi.totalWeight], by norm_num⟩
  rw [hadamard_init_one_eval]
  show Psi.hadamard ⟨1, [1 / (Real.sqrt 2 : ℂ), 1 / (Real.sqrt 2 : ℂ)]⟩ 0 = _
  rw [Psi.hadamard]
  norm_num
  rw [List.range_succ, List.range_succ, List.range_zero]
  norm_num [seqMap, hadamardStep]

/-! ### The π/8 gate is a pure phase rotation -/

theorem abs_exp_neg_I_pi8 :
    Complex.abs (Complex.exp (-Complex.I * Real.pi / 8)) = 1 := by
  have h : (-Complex.I * (Real.pi : ℂ) / 8) = ((-Real.pi / 8 : ℝ) : ℂ) * Complex.I := by
    push_cast
    ring
  rw [h, Complex.abs_exp_ofReal_mul_I]

theorem abs_exp_I_pi8 :
    Complex.abs (Complex.exp (Complex.I * Real.pi / 8)) = 1 := by
  have h : (Complex.I * (Real.pi : ℂ) / 8) = ((Real.pi / 8 : ℝ) : ℂ) * Complex.I := by
    push_cast
    ring
  rw [h, Complex.abs_exp_ofReal_mul_I]

/-- C6: for a well-formed register and a valid qubit index `q`,
`pi_over_eight` multiplies the amplitude at each index `i` by
`exp(-i·π/8)` when bit `q` of `i` is 0 and by `exp(+i·π/8)` when it is 1,
and in particular leaves every amplitude magnitude unchanged. -/
theorem pi_over_eight_phase (st : Psi) (q : Nat) (hwf : st.wf) (hq : q < st.n_qubits) :
    ∃ new, st.pi_over_eight q = .ok new ∧ new.n_qubits = st.n_qubits ∧
      new.amplitudes.length = 2 ^ st.n_qubits ∧
      (∀ i < 2 ^ st.n_qubits,
        new.amplitudes.getD i 0 =
          st.amplitudes.getD i 0 *
            (if (i >>> q) % 2 = 0 then Complex.exp (-Complex.I * Real.pi / 8)
             else Complex.exp (Complex.I * Real.pi / 8))) ∧
      (∀ i < 2 ^ st.n_qubits,
        Complex.abs (new.amplitudes.getD i 0) =
          Complex.abs (st.amplitudes.getD i 0)) := by
  have hwf' : st.amplitudes.length = 2 ^ st.n_qubits := hwf
  have hval : ∀ i < 2 ^ st.n_qubits,
      ((List.range (2 ^ st.n_qubits)).map (fun i =>
        st.amplitudes.getD i 0 *
          (if (i >>> q) % 2 = 0 then Complex.exp (-Complex.I * Real.pi / 8)
           else Complex.exp (Complex.I * Real.pi / 8)))).getD i 0 =
        st.amplitudes.getD i 0 *
          (if (i >>> q) % 2 = 0 then Complex.exp (-Complex.I * Real.pi / 8)
           else Complex.exp (Complex.I * Real.pi / 8)) := by
    intro i hi
    rw [getD_map_range _ _ hi]
  refine ⟨⟨st.n_qubits, (List.range (2 ^ st.n_qubits)).map (fun i =>
      st.amplitudes.getD i 0 *
        (if (i >>> q) % 2 = 0 then Complex.exp (-Complex.I * Real.pi / 8)
         else Complex.exp (Complex.I * Real.pi / 8)))⟩,
    ?_, rfl, by simp, hval, ?_⟩
  · rw [Psi.pi_over_eight, if_neg (by omega)]
    rw [seqMap_ok_of_forall _ _ _ ?_]
    intro i hi
    rw [List.mem_range] at hi
    rw [piStep, getElem?_eq_some_getD st.amplitudes i 0 (by rw [hwf']; exact hi)]
    by_cases h0 : (i >>> q) % 2 = 0
    · simp only [if_pos h0]
    · simp only [if_neg h0]
  · intro i hi
    rw [hval i hi]
    by_cases h0 : (i >>> q) % 2 = 0
    · rw [if_pos h0, map_mul Complex.abs, abs_exp_neg_I_pi8, mul_one]
    · rw [if_neg h0, map_mul Complex.abs, abs_exp_I_pi8, mul_one]

/-- C6 witness: the phase theorem instantiated on the freshly built
one-qubit register and qubit 0. -/
theorem pi_over_eight_phase_witness :
    (Psi.init 1).wf ∧ 0 < (Psi.init 1).n_qubits ∧
    (∃ new, (Psi.init 1).pi_over_eight 0 = .ok new ∧
      new.n_qubits = (Psi.init 1).n_qubits ∧
      new.amplitudes.length = 2 ^ (Psi.init 1).n_qubits ∧
      (∀ i < 2 ^ (Psi.init 1).n_qubits,
        new.amplitudes.getD i 0 =
          (Psi.init 1).amplitudes.getD i 0 *
            (if (i >>> 0) % 2 = 0 then Complex.exp (-Complex.I * Real.pi / 8)
             else Complex.exp (Complex.I * Real.pi / 8))) ∧
      (∀ i < 2 ^ (Psi.init 1).n_qubits,
        Complex.abs (new.amplitudes.getD i 0) =
          Complex.abs ((Psi.init 1).amplitudes.getD i 0))) :=
  ⟨by simp [Psi.wf, Psi.init], by simp [Psi.init],
    pi_over_eight_phase (Psi.init 1) 0 (by simp [Psi.wf, Psi.init]) (by simp [Psi.init])⟩

/-! ### Error handling: range checks and the off-by-one boundary -/

theorem seqMap_cons_error (f : Nat → Except PyErr ℂ) (i : Nat) (is : List Nat)
    (e : PyErr) (h : f i = .error e) : seqMap f (i :: is) = .error e := by
  rw [seqMap.eq_def]
  dsimp only
  rw [h]

/-- C7 counterexample: the qubit index `1` is `≥ qubitCount` for the
one-qubit register, yet `pi_over_eight` does not fail with `ValueError`
there — the source checks `qubit > n_qubits`, so the boundary index
`qubitCount` slips through and the gate runs. -/
theorem pi_over_eight_at_boundary_no_error :
    (Psi.init 1).pi_over_eight 1 ≠ Except.error PyErr.valueError ∧
    1 ≥ (Psi.init 1).n_qubits := by
  constructor
  · have h : Psi.init 1 = ⟨1, [1, 0]⟩ := by simp [Psi.init]
    rw [h]
    show Psi.pi_over_eight ⟨1, [1, 0]⟩ 1 ≠ _
    rw [Psi.pi_over_eight]
    norm_num
    rw [List.range_succ, List.range_succ, List.range_zero]
    norm_num [seqMap, piStep]
    simp
  · simp [Psi.init]

/-- C7 (amended): for every register and every qubit index strictly greater
than `n_qubits`, both `pi_over_eight` and `hadamard` fail with the
`ValueError` raised by the range check (the spec's `InvalidQubit`), before
touching the amplitudes; the boundary index equal to `n_qubits` itself is
not rejected. -/
theorem gates_reject_above_count (st : Psi) (q : Nat) (h : q > st.n_qubits) :
    st.pi_over_eight q = .error .valueError ∧
    st.hadamard q = .error .valueError := by
  constructor
  · rw [Psi.pi_over_eight, if_pos h]
  · rw [Psi.hadamard, if_pos h]

/-- C7 witness: index 2 on the one-qubit register is rejected by both
gates. -/
theorem gates_reject_above_count_witness :
    2 > (Psi.init 1).n_qubits ∧
    ((Psi.init 1).pi_over_eight 2 = .error .valueError ∧
      (Psi.init 1).hadamard 2 = .error .valueError) :=
  ⟨by simp [Psi.init], gates_reject_above_count (Psi.init 1) 2 (by simp [Psi.init])⟩

/-- C8: `controlled_not` with equal control and target always fails with
the `ValueError` raised by the argument check (the spec's
`DuplicateQubit`); the check precedes the snapshot and the loop, so the
amplitude vector is never touched. -/
theorem controlled_not_equal_qubits_error (st : Psi) (q : Nat) :
    st.controlled_not q q = .error .valueError := by
  rw [Psi.controlled_not, if_pos (Or.inr (Or.inr rfl))]

/-- C10: calling `hadamard` with qubit index exactly `n_qubits` on a
well-formed register passes the `qubit > n_qubits` range check, but then
every loop index takes the zero branch (bit `n_qubits` of any
`i < 2 ^ n_qubits` is 0) and the very first iteration reads
`old[0 + 2 ^ n_qubits]`, past the end of the snapshot, so the call fails
with `IndexError` rather than `ValueError`. -/
theorem hadamard_at_count_index_error (st : Psi) (hwf : st.wf) :
    st.hadamard st.n_qubits = .error .indexError ∧
    ∀ i < 2 ^ st.n_qubits, (i >>> st.n_qubits) % 2 = 0 := by
  have hwf' : st.amplitudes.length = 2 ^ st.n_qubits := hwf
  constructor
  · rw [Psi.hadamard, if_neg (lt_irrefl st.n_qubits)]
    have h0 : hadamardStep st.amplitudes st.n_qubits 0 = .error .indexError := by
      rw [hadamardStep, if_pos (by rw [Nat.zero_shiftRight])]
      have hnone : st.amplitudes[0 + 2 ^ st.n_qubits]? = none := by
        rw [List.getElem?_eq_none]
        omega
      rw [hnone]
      cases st.amplitudes[0]? <;> rfl
    obtain ⟨k, hk⟩ : ∃ k, 2 ^ st.n_qubits = k + 1 := by
      have := Nat.pow_pos (n := st.n_qubits) (by omega : 0 < 2)
      exact ⟨2 ^ st.n_qubits - 1, by omega⟩
    rw [hk, List.range_succ_eq_map, seqMap_cons_error _ _ _ _ h0]
  · intro i hi
    rw [Nat.shiftRight_eq_div_pow, Nat.div_eq_of_lt hi]

/-- C10 witness: the boundary index 1 on the one-qubit register raises
`IndexError`. -/
theorem hadamard_at_count_index_error_witness :
    (Psi.init 1).wf ∧
    ((Psi.init 1).hadamard (Psi.init 1).n_qubits = .error .indexError ∧
      ∀ i < 2 ^ (Psi.init 1).n_qubits, (i >>> (Psi.init 1).n_qubits) % 2 = 0) :=
  ⟨by simp [Psi.wf, Psi.init],
    hadamard_at_count_index_error (Psi.init 1) (by simp [Psi.wf, Psi.init])⟩

/-! ### Collapse -/

theorem collapseFind_cons (w : ℝ) (ws : List ℝ) (c : ℝ) :
    collapseFind (w :: ws) c =
      if c - w < 0 then some 0
      else (collapseFind ws (c - w)).map (· + 1) := by
  rw [collapseFind.eq_def]

theorem collapseFind_none_of_all_zero :
    ∀ (ws : List ℝ) (c : ℝ), (∀ w ∈ ws, w = 0) → 0 ≤ c →
      collapseFind ws c = none := by
  intro ws
  induction ws with
  | nil => intro c _ _; rfl
  | cons w ws ih =>
    intro c hz hc
    have hw : w = 0 := hz w (List.mem_cons_self _ _)
    rw [collapseFind_cons, if_neg (by rw [hw]; simp; linarith)]
    rw [ih (c - w) (fun x hx => hz x (List.mem_cons_of_mem _ hx)) (by rw [hw]; linarith)]
    rfl

/-- C9: if every amplitude is zero, the sampling loop of `collapse` never
sees its remainder go negative, so the Python function falls off the end of
the loop: no basis state is returned (`None`) and the amplitude vector is
left unchanged. -/
theorem collapse_all_zero (st : Psi) (r : ℝ) (hz : ∀ a ∈ st.amplitudes, a = 0) :
    st.collapse r = (none, st) := by
  have hw : ∀ w ∈ st.amplitudes.map (fun a => Complex.abs a ^ 2), w = 0 := by
    intro w hwm
    rw [List.mem_map] at hwm
    obtain ⟨a, ha, rfl⟩ := hwm
    rw [hz a ha]
    simp
  have hsum : (st.amplitudes.map (fun a => Complex.abs a ^ 2)).sum = 0 :=
    List.sum_eq_zero hw
  rw [Psi.collapse]
  simp only [hsum, mul_zero]
  rw [collapseFind_none_of_all_zero _ 0 hw le_rfl]

/-- C9 witness: collapsing the two-amplitude zero vector returns `None`
and leaves the state unchanged. -/
theorem collapse_all_zero_witness :
    (∀ a ∈ (⟨1, [0, 0]⟩ : Psi).amplitudes, a = 0) ∧
    Psi.collapse ⟨1, [0, 0]⟩ (1 / 2) = (none, ⟨1, [0, 0]⟩) :=
  ⟨by simp, collapse_all_zero ⟨1, [0, 0]⟩ (1 / 2) (by simp)⟩

/-! ### Controlled-NOT: the scatter loop is a permutation of basis states -/

theorem scatter_cons (old : List ℂ) (dest : Nat → Nat) (i : Nat) (is : List Nat)
    (amps : List ℂ) :
    scatter old dest (i :: is) amps =
      match old[i]? with
      | none => .error .indexError
      | some v =>
        if dest i < amps.length then
          scatter old dest is (amps.set (dest i) v)
        else .error .indexError := by
  rw [scatter.eq_def]

theorem scatter_ok (old : List ℂ) (dest : Nat → Nat) :
    ∀ (l : List Nat) (amps : List ℂ),
      (∀ i ∈ l, i < old.length) → (∀ i ∈ l, dest i < amps.length) →
      ∃ res, scatter old dest l amps = .ok res ∧ res.length = amps.length := by
  intro l
  induction l with
  | nil => intro amps _ _; exact ⟨amps, rfl, rfl⟩
  | cons a as ih =>
    intro amps hr hw
    rw [scatter_cons,
      getElem?_eq_some_getD old a 0 (hr a (List.mem_cons_self _ _))]
    dsimp only
    rw [if_pos (hw a (List.mem_cons_self _ _))]
    obtain ⟨res, hres, hlen⟩ := ih (amps.set (dest a) (old.getD a 0))
      (fun i hi => hr i (List.mem_cons_of_mem _ hi))
      (fun i hi => by rw [List.length_set]; exact hw i (List.mem_cons_of_mem _ hi))
    exact ⟨res, hres, by rw [hlen, List.length_set]⟩

theorem scatter_getD_of_not_mem (old : List ℂ) (dest : Nat → Nat) (j : Nat) (d : ℂ) :
    ∀ (l : List Nat) (amps res : List ℂ),
      (∀ i ∈ l, dest i ≠ j) →
      scatter old dest l amps = .ok res → res.getD j d = amps.getD j d := by
  intro l
  induction l with
  | nil =>
    intro amps res _ hs
    simp only [scatter, Except.ok.injEq] at hs
    rw [← hs]
  | cons a as ih =>
    intro amps res hj hs
    rw [scatter_cons] at hs
    cases hoa : old[a]? with
    | none => rw [hoa] at hs; simp at hs
    | some v =>
      rw [hoa] at hs
      dsimp only at hs
      by_cases hlt : dest a < amps.length
      · rw [if_pos hlt] at hs
        rw [ih (amps.set (dest a) v) res (fun i hi => hj i (List.mem_cons_of_mem _ hi)) hs]
        rw [List.getD_eq_getElem?_getD,
          List.getElem?_set_ne (hj a (List.mem_cons_self _ _)),
          ← List.getD_eq_getElem?_getD]
      · rw [if_neg hlt] at hs; simp at hs

theorem scatter_getD_of_mem (old : List ℂ) (dest : Nat → Nat) (j : Nat) (d : ℂ) :
    ∀ (l : List Nat) (amps res : List ℂ) (i : Nat),
      l.Nodup → i ∈ l → dest i = j →
      (∀ i' ∈ l, dest i' = j → i' = i) →
      scatter old dest l amps = .ok res →
      res.getD j d = old.getD i d := by
  intro l
  induction l with
  | nil => intro amps res i _ hi; cases hi
  | cons a as ih =>
    intro amps res i hnd hi hij huniq hs
    rw [scatter_cons] at hs
    cases hoa : old[a]? with
    | none => rw [hoa] at hs; simp at hs
    | some v =>
      rw [hoa] at hs
      dsimp only at hs
      by_cases hlt : dest a < amps.length
      · rw [if_pos hlt] at hs
        rcases List.mem_cons.mp hi with rfl | hias
        · have hnot : ∀ i' ∈ as, dest i' ≠ j := by
            intro i' hi' hd
            have he := huniq i' (List.mem_cons_of_mem _ hi') hd
            subst he
            exact (List.nodup_cons.mp hnd).1 hi'
          rw [scatter_getD_of_not_mem old dest j d as _ res hnot hs]
          rw [List.getD_eq_getElem?_getD, ← hij, List.getElem?_set_self hlt]
          have hv : old.getD i d = v := by
            rw [List.getD_eq_getElem?_getD, hoa]
            rfl
          rw [hv]
          rfl
        · have hdne : dest a ≠ j := by
            intro hd
            have he := huniq a (List.mem_cons_self _ _) hd
            rw [he] at hnd
            exact (List.nodup_cons.mp hnd).1 hias
          exact ih (amps.set (dest a) v) res i (List.nodup_cons.mp hnd).2 hias hij
            (fun i' hi' hd => huniq i' (List.mem_cons_of_mem _ hi') hd) hs
      · rw [if_neg hlt] at hs; simp at hs

theorem testBit_of_mod (x k : Nat) :
    (x >>> k) % 2 = if x.testBit k then 1 else 0 := by
  rw [Nat.testBit_to_div_mod, Nat.shiftRight_eq_div_pow]
  rcases Nat.mod_two_eq_zero_or_one (x / 2 ^ k) with h | h <;> simp [h]

theorem cnotDest_eq_of_bit_zero {q1 q2 i : Nat} (h : (i >>> q1) % 2 = 0) :
    cnotDest q1 q2 i = i := by
  rw [cnotDest, h, Nat.zero_shiftLeft, Nat.xor_zero]

theorem cnotDest_eq_of_bit_one {q1 q2 i : Nat} (h : (i >>> q1) % 2 = 1) :
    cnotDest q1 q2 i = i ^^^ 2 ^ q2 := by
  rw [cnotDest, h, Nat.one_shiftLeft]

theorem cnotDest_lt {n q2 : Nat} (q1 : Nat) (hq2 : q2 < n) {i : Nat}
    (hi : i < 2 ^ n) : cnotDest q1 q2 i < 2 ^ n := by
  rcases Nat.mod_two_eq_zero_or_one (i >>> q1) with h | h
  · rw [cnotDest_eq_of_bit_zero h]
    exact hi
  · rw [cnotDest_eq_of_bit_one h]
    exact Nat.xor_lt_two_pow hi (Nat.pow_lt_pow_right (by omega) hq2)

theorem cnotDest_bit {q1 q2 : Nat} (hne : q1 ≠ q2) (i : Nat) :
    ((cnotDest q1 q2 i) >>> q1) % 2 = (i >>> q1) % 2 := by
  rcases Nat.mod_two_eq_zero_or_one (i >>> q1) with h | h
  · rw [cnotDest_eq_of_bit_zero h]
  · rw [cnotDest_eq_of_bit_one h]
    have hb : (i ^^^ 2 ^ q2).testBit q1 = i.testBit q1 := by
      rw [Nat.testBit_xor, Nat.testBit_two_pow_of_ne (fun hh => hne hh.symm)]
      simp
    rw [testBit_of_mod, testBit_of_mod, hb]

theorem cnotDest_invol {q1 q2 : Nat} (hne : q1 ≠ q2) (i : Nat) :
    cnotDest q1 q2 (cnotDest q1 q2 i) = i := by
  nth_rewrite 1 [cnotDest]
  rw [cnotDest_bit hne, cnotDest]
  exact Nat.xor_cancel_right _ _

theorem cnotDest_inj {q1 q2 : Nat} (hne : q1 ≠ q2) {i i' : Nat}
    (h : cnotDest q1 q2 i = cnotDest q1 q2 i') : i = i' := by
  have h2 := congrArg (cnotDest q1 q2) h
  rwa [cnotDest_invol hne, cnotDest_invol hne] at h2

theorem scatter_nil (old : List ℂ) (dest : Nat → Nat) (amps : List ℂ) :
    scatter old dest [] amps = .ok amps := rfl

/-- C4: for a well-formed register and valid distinct control and target
indices, `controlled_not` relocates the amplitude at each original index
`i` to index `i ^ (((i >> control) % 2) << target)`; in particular, on the
2-qubit register with amplitude 1 at index 2, `controlled_not 1 0` moves
it to index 3. -/
theorem controlled_not_relocates :
    (∀ (st : Psi) (q1 q2 : Nat), st.wf → q1 < st.n_qubits → q2 < st.n_qubits →
      q1 ≠ q2 →
      ∃ new, st.controlled_not q1 q2 = .ok new ∧ new.n_qubits = st.n_qubits ∧
        new.amplitudes.length = 2 ^ st.n_qubits ∧
        ∀ i < 2 ^ st.n_qubits,
          new.amplitudes.getD (cnotDest q1 q2 i) 0 = st.amplitudes.getD i 0) ∧
    Psi.controlled_not ⟨2, [0, 0, 1, 0]⟩ 1 0 = .ok ⟨2, [0, 0, 0, 1]⟩ := by
  constructor
  · intro st q1 q2 hwf h1 h2 hne
    have hwf' : st.amplitudes.length = 2 ^ st.n_qubits := hwf
    rw [Psi.controlled_not,
      if_neg (by push_neg; exact ⟨by omega, by omega, hne⟩)]
    obtain ⟨res, hres, hlen⟩ := scatter_ok st.amplitudes (cnotDest q1 q2)
      (List.range (2 ^ st.n_qubits)) st.amplitudes
      (fun i hi => by rw [hwf']; exact List.mem_range.mp hi)
      (fun i hi => by rw [hwf']; exact cnotDest_lt q1 h2 (List.mem_range.mp hi))
    rw [hres]
    refine ⟨⟨st.n_qubits, res⟩, rfl, rfl, by rw [hlen, hwf'], ?_⟩
    intro i hi
    exact scatter_getD_of_mem st.amplitudes (cnotDest q1 q2) (cnotDest q1 q2 i) 0
      (List.range (2 ^ st.n_qubits)) st.amplitudes res i (List.nodup_range _)
      (List.mem_range.mpr hi) rfl
      (fun i' hi' hd => cnotDest_inj hne hd) hres
  · rw [Psi.controlled_not]
    norm_num
    rw [show (4 : Nat) = 3 + 1 from rfl, List.range_succ,
      show (3 : Nat) = 2 + 1 from rfl, List.range_succ,
      show (2 : Nat) = 1 + 1 from rfl, List.range_succ, List.range_succ,
      List.range_zero]
    norm_num [scatter_cons, scatter_nil, cnotDest, Nat.shiftLeft_zero,
      show ((0 : Nat) ^^^ (0 >>> 1) % 2) = 0 from by decide,
      show ((1 : Nat) ^^^ (1 >>> 1) % 2) = 1 from by decide,
      show ((2 : Nat) ^^^ (2 >>> 1) % 2) = 3 from by decide,
      show ((3 : Nat) ^^^ (3 >>> 1) % 2) = 2 from by decide]

/-! ### Collapse succeeds on positive total weight -/

theorem collapseFind_some_of_lt_sum :
    ∀ (ws : List ℝ) (c : ℝ), 0 ≤ c → c < ws.sum →
      ∃ i, collapseFind ws c = some i := by
  intro ws
  induction ws with
  | nil =>
    intro c h0 h1
    rw [List.sum_nil] at h1
    linarith
  | cons w ws ih =>
    intro c h0 h1
    rw [collapseFind_cons]
    by_cases h : c - w < 0
    · exact ⟨0, if_pos h⟩
    · push_neg at h
      obtain ⟨j, hj⟩ := ih (c - w) h (by rw [List.sum_cons] at h1; linarith)
      exact ⟨j + 1, by rw [if_neg (not_lt.mpr h), hj]; rfl⟩

theorem collapseFind_lt_length :
    ∀ (ws : List ℝ) (c : ℝ) (i : Nat), collapseFind ws c = some i →
      i < ws.length := by
  intro ws
  induction ws with
  | nil => intro c i h; cases h
  | cons w ws ih =>
    intro c i h
    rw [collapseFind_cons] at h
    by_cases hw : c - w < 0
    · rw [if_pos hw] at h
      cases h
      simp
    · rw [if_neg hw] at h
      obtain ⟨j, hj, rfl⟩ := Option.map_eq_some'.mp h
      have := ih (c - w) j hj
      simp
      omega

theorem sum_bits_eq_mod (n i : Nat) :
    (∑ b ∈ Finset.range n, ((i >>> b) % 2) * 2 ^ b) = i % 2 ^ n := by
  induction n with
  | zero => simp [Nat.mod_one]
  | succ n ih =>
    rw [Finset.sum_range_succ, ih, Nat.mod_pow_succ, Nat.shiftRight_eq_div_pow]
    ring

/-- C5: for a well-formed register with positive total weight and a draw
`r` from `[0, 1)`, `collapse` returns a tuple of `n_qubits` bits, qubit 0
first, that are the binary digits of the sampled index `i`; the integer
encoding of the bits equals `i`, and the post-call amplitude vector has a
1 at index `i` and 0 everywhere else. -/
theorem collapse_success (st : Psi) (r : ℝ) (hwf : st.wf) (hr0 : 0 ≤ r)
    (hr1 : r < 1) (hw : 0 < st.totalWeight) :
    ∃ i bits st2, st.collapse r = (some bits, st2) ∧
      i < 2 ^ st.n_qubits ∧
      bits.length = st.n_qubits ∧
      (∀ b < st.n_qubits, bits.getD b 0 = (i >>> b) % 2) ∧
      (∑ b ∈ Finset.range st.n_qubits, bits.getD b 0 * 2 ^ b) = i ∧
      st2.n_qubits = st.n_qubits ∧
      st2.amplitudes.length = 2 ^ st.n_qubits ∧
      st2.amplitudes.getD i 0 = 1 ∧
      (∀ j < 2 ^ st.n_qubits, j ≠ i → st2.amplitudes.getD j 0 = 0) := by
  have hwf' : st.amplitudes.length = 2 ^ st.n_qubits := hwf
  have hsum : (st.amplitudes.map (fun a => Complex.abs a ^ 2)).sum = st.totalWeight := rfl
  have hc0 : 0 ≤ r * (st.amplitudes.map (fun a => Complex.abs a ^ 2)).sum :=
    mul_nonneg hr0 (by rw [hsum]; linarith)
  have hc1 : r * (st.amplitudes.map (fun a => Complex.abs a ^ 2)).sum <
      (st.amplitudes.map (fun a => Complex.abs a ^ 2)).sum := by
    rw [hsum]
    calc r * st.totalWeight < 1 * st.totalWeight := mul_lt_mul_of_pos_right hr1 hw
      _ = st.totalWeight := one_mul _
  obtain ⟨i, hfind⟩ := collapseFind_some_of_lt_sum _ _ hc0 hc1
  have hilen := collapseFind_lt_length _ _ i hfind
  rw [List.length_map, hwf'] at hilen
  have hbits : ∀ b < st.n_qubits,
      ((List.range st.n_qubits).map (fun b => (i >>> b) % 2)).getD b 0 =
        (i >>> b) % 2 := by
    intro b hb
    rw [getD_map_range _ _ hb]
  refine ⟨i, (List.range st.n_qubits).map (fun b => (i >>> b) % 2),
    ⟨st.n_qubits, (List.replicate (2 ^ st.n_qubits) 0).set i 1⟩,
    ?_, hilen, by simp, hbits, ?_, rfl, by simp, ?_, ?_⟩
  · simp only [Psi.collapse]
    rw [hfind]
  · calc (∑ b ∈ Finset.range st.n_qubits,
        ((List.range st.n_qubits).map (fun b => (i >>> b) % 2)).getD b 0 * 2 ^ b)
        = ∑ b ∈ Finset.range st.n_qubits, ((i >>> b) % 2) * 2 ^ b := by
          apply Finset.sum_congr rfl
          intro b hb
          rw [hbits b (Finset.mem_range.mp hb)]
      _ = i % 2 ^ st.n_qubits := sum_bits_eq_mod _ i
      _ = i := Nat.mod_eq_of_lt hilen
  · rw [List.getD_eq_getElem?_getD,
      List.getElem?_set_self (by rw [List.length_replicate]; exact hilen)]
    rfl
  · intro j hj hne
    rw [List.getD_eq_getElem?_getD, List.getElem?_set_ne (fun h => hne h.symm),
      List.getElem?_replicate]
    simp [hj]

/-- C4 witness: the relocation theorem instantiated on the 2-qubit register
with amplitude 1 at index 2, control 1 and target 0. -/
theorem controlled_not_relocates_witness :
    (⟨2, [0, 0, 1, 0]⟩ : Psi).wf ∧ 1 < (⟨2, [0, 0, 1, 0]⟩ : Psi).n_qubits ∧
    0 < (⟨2, [0, 0, 1, 0]⟩ : Psi).n_qubits ∧ (1 : Nat) ≠ 0 ∧
    (∃ new, (⟨2, [0, 0, 1, 0]⟩ : Psi).controlled_not 1 0 = .ok new ∧
      new.n_qubits = (⟨2, [0, 0, 1, 0]⟩ : Psi).n_qubits ∧
      new.amplitudes.length = 2 ^ (⟨2, [0, 0, 1, 0]⟩ : Psi).n_qubits ∧
      ∀ i < 2 ^ (⟨2, [0, 0, 1, 0]⟩ : Psi).n_qubits,
        new.amplitudes.getD (cnotDest 1 0 i) 0 =
          (⟨2, [0, 0, 1, 0]⟩ : Psi).amplitudes.getD i 0) :=
  ⟨by simp [Psi.wf], by norm_num, by norm_num, by norm_num,
    controlled_not_relocates.1 ⟨2, [0, 0, 1, 0]⟩ 1 0 (by simp [Psi.wf])
      (by norm_num) (by norm_num) (by norm_num)⟩

/-- C5 witness: the collapse theorem instantiated on the freshly built
one-qubit register with draw `r = 1/2`. -/
theorem collapse_success_witness :
    (Psi.init 1).wf ∧ (0 : ℝ) ≤ 1 / 2 ∧ (1 / 2 : ℝ) < 1 ∧
    0 < (Psi.init 1).totalWeight ∧
    (∃ i bits st2, (Psi.init 1).collapse (1 / 2) = (some bits, st2) ∧
      i < 2 ^ (Psi.init 1).n_qubits ∧
      bits.length = (Psi.init 1).n_qubits ∧
      (∀ b < (Psi.init 1).n_qubits, bits.getD b 0 = (i >>> b) % 2) ∧
      (∑ b ∈ Finset.range (Psi.init 1).n_qubits, bits.getD b 0 * 2 ^ b) = i ∧
      st2.n_qubits = (Psi.init 1).n_qubits ∧
      st2.amplitudes.length = 2 ^ (Psi.init 1).n_qubits ∧
      st2.amplitudes.getD i 0 = 1 ∧
      (∀ j < 2 ^ (Psi.init 1).n_qubits, j ≠ i → st2.amplitudes.getD j 0 = 0)) :=
  ⟨by simp [Psi.wf, Psi.init], by norm_num, by norm_num,
    by rw [show Psi.init 1 = ⟨1, [1, 0]⟩ from by simp [Psi.init]]
       norm_num [Psi.totalWeight],
    collapse_success (Psi.init 1) (1 / 2) (by simp [Psi.wf, Psi.init])
      (by norm_num) (by norm_num)
      (by rw [show Psi.init 1 = ⟨1, [1, 0]⟩ from by simp [Psi.init]]
          norm_num [Psi.totalWeight])⟩
